import Mathlib

/-!
jelly-cms: the template renderer and the locale loader of `src/main.c`

A shallow embedding of `process_template`, `get_locale_value`, `load_file`,
`load_partial` and the parsing loop of `load_locale_file`, followed by the
properties of the renderer that the specification states.

Conventions of the embedding.

* A C string is the list of its bytes before the terminating NUL (`CStr`).
  A `char *` that points into a string is the suffix of the list it points at;
  the empty list is a pointer at the terminator.
* `strchr` and `strstr` return the offset of the match from the start of the
  searched string (`end - input` in the source), `none` for a null pointer.
* The file system is a function from a path to the bytes of the file.
* `malloc` always succeeds.
* `process_template` calls itself for every included partial and the source
  has no bound on the nesting, so the embedding takes the nesting depth it may
  use as fuel and answers `Outcome.diverge` when the fuel is used up.
-/

namespace JellyCms

/-! ## Constants and data model -/

abbrev MAX_PATH : Nat := 1024
abbrev MAX_CONTENT : Nat := 65536
abbrev MAX_LOCALES : Nat := 10
abbrev MAX_LOCALE_ENTRIES : Nat := 100

/-- The bytes of a NUL-terminated string, terminator excluded. -/
abbrev CStr := List Char

/-- Source `LocaleEntry`: `char key[256]; char value[1024];`, both holding a
NUL-terminated string, so the key has at most 255 and the value at most 1023
bytes. -/
structure LocaleEntry where
  key : CStr
  value : CStr
  key_fits : key.length < 256
  value_fits : value.length < 1024

/-- Source `Locale`: `code`, and the first `count` slots of `entries`. -/
structure Locale where
  code : CStr
  entries : List LocaleEntry

/-- Source field `count` of a `Locale`. -/
def Locale.count (l : Locale) : Nat := l.entries.length

/-- What is on disk: the bytes of the file a path opens, if it opens. -/
abbrev FileSystem := CStr → Option (List Char)

/-- How a call of `process_template` ends. -/
inductive Outcome where
  /-- The call returns this string. -/
  | ok (result : CStr)
  /-- The input cursor was moved past the terminator of the text (the
  terminator itself was copied to the output); what the loop reads next is not
  part of the text. -/
  | overrun
  /-- The nesting fuel is used up: the call has not returned. -/
  | diverge
  deriving DecidableEq, Repr

/-! ## String primitives -/

/-- The opening marker of an include directive, 14 bytes. -/
def include_open : CStr := "<!-- %include.".toList

/-- The closing marker of an include directive, 5 bytes. -/
def include_close : CStr := "% -->".toList

/-- The opening marker of a locale variable, 8 bytes. -/
def locale_open : CStr := "%locale.".toList

/-- C `strchr(s, c)` for `c ≠ 0`: the offset of the first `c` in `s`. -/
def strchr : CStr → Char → Option Nat
  | [], _ => none
  | x :: xs, c => if x = c then some 0 else (strchr xs c).map (· + 1)

/-- C `strstr(haystack, needle)`: the offset of the first occurrence. -/
def strstr : CStr → CStr → Option Nat
  | [], needle => if needle = [] then some 0 else none
  | x :: xs, needle =>
    if needle.isPrefixOf (x :: xs) then some 0 else (strstr xs needle).map (· + 1)

/-! ## Locale lookup and file loading -/

/-- The `for` loop of `get_locale_value` over `entries[0..count)`. -/
def get_locale_value.scan : List LocaleEntry → CStr → Option CStr
  | [], _ => none
  | e :: es, key => if e.key = key then some e.value else get_locale_value.scan es key

/-- Source `get_locale_value`: the value of the first entry whose key
`strcmp`s equal to `key`; `none` is the null pointer. -/
def get_locale_value (locale : Option Locale) (key : CStr) : Option CStr :=
  match locale with
  | none => none
  | some l => get_locale_value.scan l.entries key

/-- Source `load_file`: null when the file does not open, is empty or is longer
than `MAX_CONTENT`; otherwise its bytes as a C string (up to the first NUL). -/
def load_file (fs : FileSystem) (path : CStr) : Option CStr :=
  match fs path with
  | none => none
  | some bytes =>
    if bytes.length = 0 ∨ bytes.length > MAX_CONTENT then none
    else some (bytes.takeWhile (· ≠ '\x00'))

/-- Source `load_partial`: `snprintf(path, MAX_PATH, "src/partials/%s.html", name)`
then `load_file(path)`. -/
def load_partial (fs : FileSystem) (name : CStr) : Option CStr :=
  load_file fs (("src/partials/".toList ++ name ++ ".html".toList).take (MAX_PATH - 1))

/-! ## `process_template` -/

/-- The local variables of the scanning loop of `process_template`. -/
structure Scan where
  /-- Variable `input`: the text from the cursor to the terminator. -/
  input : CStr
  /-- The bytes written to `result` so far, `result[0 .. output - result)`. -/
  output : List Char
  /-- Variable `remaining`. -/
  remaining : Nat
  deriving DecidableEq, Repr

/-- What one pass through the `while` of `process_template` does. -/
inductive Step where
  /-- The loop condition is false. -/
  | done
  /-- The body ran and left this state. -/
  | next (s : Scan)
  /-- The body copied the terminator and moved `input` past it. -/
  | overrun
  /-- The nested call for a partial did not return. -/
  | diverge
  deriving DecidableEq, Repr

/-- `*output++ = *input++; remaining--;` at cursor `input`. -/
def copy_char (input : CStr) (st : Scan) : Step :=
  match input with
  | [] => .overrun
  | c :: cs => .next ⟨cs, st.output ++ [c], st.remaining - 1⟩

/-- One iteration of `while (*input && remaining > 1) { ... }`; `render` is the
recursive call of `process_template` with the same locale. -/
def step (fs : FileSystem) (render : CStr → Outcome) (locale : Option Locale)
    (st : Scan) : Step :=
  if st.input = [] ∨ ¬ st.remaining > 1 then .done
  else if include_open.isPrefixOf st.input then
    let input := st.input.drop 14
    match strstr input include_close with
    | some name_len =>
      let after := input.drop (name_len + 5)
      if name_len < 255 then
        let partial_name := input.take name_len
        match load_partial fs partial_name with
        | some partial_content =>
          match render partial_content with
          | .ok processed_partial =>
            let partial_len := processed_partial.length
            if partial_len < st.remaining then
              .next ⟨after, st.output ++ processed_partial, st.remaining - partial_len⟩
            else .next ⟨after, st.output, st.remaining⟩
          | .overrun => .overrun
          | .diverge => .diverge
        | none => .next ⟨after, st.output, st.remaining⟩
      else .next ⟨after, st.output, st.remaining⟩
    | none => copy_char input st
  else if locale_open.isPrefixOf st.input then
    let input := st.input.drop 8
    match strchr input '%', locale with
    | some key_len, some l =>
      let after := input.drop (key_len + 1)
      if key_len < 255 then
        let key := input.take key_len
        match get_locale_value (some l) key with
        | some value =>
          let value_len := value.length
          if value_len < st.remaining then
            .next ⟨after, st.output ++ value, st.remaining - value_len⟩
          else .next ⟨after, st.output, st.remaining⟩
        | none => .next ⟨after, st.output, st.remaining⟩
      else .next ⟨after, st.output, st.remaining⟩
    | _, _ => copy_char input st
  else copy_char st.input st

/-- The `while` loop of `process_template` run for at most `n` iterations,
then `*output = 0; return result;`. Every iteration moves the cursor forward,
so `strlen(content) + 1` iterations are never used up (`scan_loop_fuel`,
`scan_loop_not_diverge`); `diverge` here can only come from a nested call. -/
def scan_loop (fs : FileSystem) (render : CStr → Outcome) (locale : Option Locale) :
    Nat → Scan → Outcome
  | 0, _ => .diverge
  | n + 1, st =>
    match step fs render locale st with
    | .done => .ok st.output
    | .next st' => scan_loop fs render locale n st'
    | .overrun => .overrun
    | .diverge => .diverge

/-- Source `process_template(content, locale)` with nesting fuel: `depth` is the
number of nested calls that may be open at once. -/
def process_template (fs : FileSystem) : Nat → CStr → Option Locale → Outcome
  | 0, _, _ => .diverge
  | depth + 1, content, locale =>
    let content_len := content.length
    scan_loop fs (fun p => process_template fs depth p locale) locale (content_len + 1)
      ⟨content, [], MAX_CONTENT - 1⟩

/-- The text holds no opening marker of a directive, neither `<!-- %include.`
nor `%locale.`. -/
def NoDirective (text : CStr) : Prop :=
  ¬ include_open <:+: text ∧ ¬ locale_open <:+: text

instance (text : CStr) : Decidable (NoDirective text) :=
  inferInstanceAs (Decidable (_ ∧ _))

/-- The text ends right after an opening marker, `<!-- %include.` or
`%locale.`, with nothing between the marker and the terminator. -/
def EndsAtMarker (text : CStr) : Prop :=
  include_open <:+ text ∨ locale_open <:+ text

instance (text : CStr) : Decidable (EndsAtMarker text) :=
  inferInstanceAs (Decidable (_ ∨ _))

/-- The relation "one iteration of the loop leads from `a` to `b`". -/
def scan_next (fs : FileSystem) (render : CStr → Outcome) (locale : Option Locale)
    (a b : Scan) : Prop :=
  step fs render locale a = .next b

/-! ## The parsing loop of `load_locale_file` -/

/-- The variables of the parsing loop of `load_locale_file`: `pos`, and the
entries stored so far, `locale->entries[0 .. locale->count)`. The key the loop
copies into slot `count` before it has seen the value is not part of the table
until `count` is incremented, and is overwritten otherwise. -/
structure Parse where
  pos : CStr
  entries : List LocaleEntry

/-- What one pass through the `while` of `load_locale_file` does. -/
inductive ParseStep where
  /-- The loop condition is false, or `break`. -/
  | stop
  /-- The body ran (to its end or to a `continue`) and left this state. -/
  | next (s : Parse)

/-- One iteration of `while (*pos && locale->count < MAX_LOCALE_ENTRIES)`.
`quote1` .. `quote4` and `colon` are the pointers of the source, as the text
they point at. -/
def parse_step (st : Parse) : ParseStep :=
  if st.pos = [] ∨ ¬ st.entries.length < MAX_LOCALE_ENTRIES then .stop
  else
    match strchr st.pos '"' with
    | none => .stop
    | some q1 =>
      let quote1 := st.pos.drop (q1 + 1)
      match strchr quote1 '"' with
      | none => .stop
      | some key_len =>
        let quote2 := quote1.drop key_len
        if hkey : key_len ≥ 256 ∨ key_len = 0 then .next ⟨quote2.drop 1, st.entries⟩
        else
          match strchr quote2 ':' with
          | none => .next ⟨quote2.drop 1, st.entries⟩
          | some c =>
            let colon := quote2.drop c
            match strchr colon '"' with
            | none => .next ⟨quote2.drop 1, st.entries⟩
            | some q3 =>
              let quote3 := colon.drop (q3 + 1)
              match strchr quote3 '"' with
              | none => .next ⟨quote3, st.entries⟩
              | some value_len =>
                let quote4 := quote3.drop value_len
                if hvalue : value_len ≥ 1024 then .next ⟨quote4.drop 1, st.entries⟩
                else
                  .next ⟨quote4.drop 1, st.entries ++
                    [⟨quote1.take key_len, quote3.take value_len,
                      Nat.lt_of_le_of_lt (List.length_take_le _ _) (by omega),
                      Nat.lt_of_le_of_lt (List.length_take_le _ _) (by omega)⟩]⟩

/-- The parsing loop run for at most `n` iterations; `none` when they are used
up. -/
def parse_loop : Nat → Parse → Option (List LocaleEntry)
  | 0, _ => none
  | n + 1, st =>
    match parse_step st with
    | .stop => some st.entries
    | .next st' => parse_loop n st'

/-- Lines 171-229 of `load_locale_file`: `locale->count = 0; pos = content;`
and the loop. Every iteration moves `pos` forward, so `strlen(content) + 1`
iterations are enough. -/
def load_locale_file_loop (content : CStr) : Option (List LocaleEntry) :=
  parse_loop (content.length + 1) ⟨content, []⟩

/-- One pair of a locale file as text: `"key"`, then `mid`, then `"value"`,
then `post`. In a JSON object `mid` is the colon with optional whitespace and
`post` the comma or closing brace with optional whitespace. -/
structure Item where
  key : CStr
  mid : CStr
  value : CStr
  post : CStr

/-- The text of one pair. -/
def Item.text (it : Item) : CStr :=
  '"' :: (it.key ++ '"' :: (it.mid ++ '"' :: (it.value ++ '"' :: it.post)))

/-- The key is non-empty, at most 255 bytes and free of `"`; the value is at
most 1023 bytes and free of `"`; the text between them holds a colon and no
`"`; the text after the value holds no `"`. -/
def Item.well_formed (it : Item) : Prop :=
  it.key ≠ [] ∧ it.key.length ≤ 255 ∧ '"' ∉ it.key ∧ ':' ∈ it.mid ∧ '"' ∉ it.mid ∧
    it.value.length ≤ 1023 ∧ '"' ∉ it.value ∧ '"' ∉ it.post

/-- The text of a sequence of pairs. -/
def items_text : List Item → CStr
  | [] => []
  | it :: rest => it.text ++ items_text rest

/-- The pairs of `\x7b"a": "b", "c": "d"\x7d` after the opening brace. -/
def items_demo : List Item :=
  [⟨"a".toList, ": ".toList, "b".toList, ", ".toList⟩,
   ⟨"c".toList, ": ".toList, "d".toList, "\x7d".toList⟩]

/-! ## Concrete inputs -/

/-- A partial directory with `p.html` holding `%locale.x%`, `self.html` that
includes itself, and `p1.html`, `p2.html` that include each other. -/
def fs_demo : FileSystem := fun path =>
  if path = "src/partials/p.html".toList then some "%locale.x%".toList
  else if path = "src/partials/self.html".toList then some "<!-- %include.self% -->".toList
  else if path = "src/partials/p1.html".toList then some "<!-- %include.p2% -->".toList
  else if path = "src/partials/p2.html".toList then some "<!-- %include.p1% -->".toList
  else none

/-- The locale table `{x: "V"}`. -/
def locale_demo : Locale :=
  ⟨"en".toList, [⟨"x".toList, "V".toList, by decide, by decide⟩]⟩

/-- A partial directory without include cycles: only `p.html`, holding
`%locale.x%`. -/
def fs_single : FileSystem := fun path =>
  if path = "src/partials/p.html".toList then some "%locale.x%".toList else none

/-- Rank 1 for a text that holds an include marker, 0 for any other. -/
def include_rank (text : CStr) : Nat :=
  if include_open <:+: text then 1 else 0

/-- The locale table `{k: "VV"}`. -/
def locale_wide : Locale :=
  ⟨"en".toList, [⟨"k".toList, "VV".toList, by decide, by decide⟩]⟩

/-! ## String primitives: basic facts -/

theorem strchr_append {k : CStr} {c : Char} (rest : CStr) (h : c ∉ k) :
    strchr (k ++ c :: rest) c = some k.length := by
  induction k with
  | nil => simp [strchr]
  | cons x xs ih =>
    have hx : x ≠ c := fun e => h (by simp [e])
    have hxs : c ∉ xs := fun e => h (by simp [e])
    simp [strchr, hx, ih hxs]

theorem strchr_none {s : CStr} {c : Char} (h : c ∉ s) : strchr s c = none := by
  induction s with
  | nil => simp [strchr]
  | cons x xs ih =>
    have hx : x ≠ c := fun e => h (by simp [e])
    have hxs : c ∉ xs := fun e => h (by simp [e])
    simp [strchr, hx, ih hxs]

theorem isPrefixOf_length_le {p s : CStr} (h : p.isPrefixOf s = true) : p.length ≤ s.length :=
  (List.isPrefixOf_iff_prefix.mp h).length_le

/-! ## The loop always moves forward -/

theorem copy_char_input_lt {input : CStr} {st st' : Scan} (h : copy_char input st = .next st') :
    st'.input.length < input.length := by
  unfold copy_char at h
  split at h
  · simp at h
  · simp at h; simp [← h]

theorem step_input_lt {fs : FileSystem} {render : CStr → Outcome} {locale : Option Locale}
    {st st' : Scan} (h : step fs render locale st = .next st') :
    st'.input.length < st.input.length := by
  unfold step at h
  split at h
  · simp at h
  rename_i hne
  have hpos : 0 < st.input.length := by
    rcases hi : st.input with _ | ⟨c, cs⟩
    · simp [hi] at hne
    · simp
  split at h
  · rename_i hp
    have h14 := isPrefixOf_length_le hp
    simp [include_open] at h14
    simp only at h
    split at h
    · split at h
      · split at h
        · split at h
          · split at h <;> (simp at h; rw [← h]; simp; omega)
          · simp at h
          · simp at h
        · simp at h; rw [← h]; simp; omega
      · simp at h; rw [← h]; simp; omega
    · have := copy_char_input_lt h
      simp at this; omega
  · split at h
    · rename_i hp
      have h8 := isPrefixOf_length_le hp
      simp [locale_open] at h8
      simp only at h
      split at h
      · split at h
        · split at h
          · split at h <;> (simp at h; rw [← h]; simp; omega)
          · simp at h; rw [← h]; simp; omega
        · simp at h; rw [← h]; simp; omega
      · have := copy_char_input_lt h
        simp at this; omega
    · exact copy_char_input_lt h

/-- The iteration bound of `scan_loop` is never the reason it stops: any two
bounds above the length of the remaining input give the same outcome. -/
theorem scan_loop_fuel (fs : FileSystem) (render : CStr → Outcome) (locale : Option Locale)
    (n m : Nat) (st : Scan) (hn : st.input.length < n) (hm : st.input.length < m) :
    scan_loop fs render locale n st = scan_loop fs render locale m st := by
  induction n generalizing m st with
  | zero => omega
  | succ n ih =>
    cases m with
    | zero => omega
    | succ m =>
      simp only [scan_loop]
      cases hs : step fs render locale st with
      | done => rfl
      | overrun => rfl
      | diverge => rfl
      | next st' =>
        have := step_input_lt hs
        exact ih m st' (by omega) (by omega)

/-! ## The markers -/

theorem include_close_eq : include_close = ['%', ' ', '-', '-', '>'] := rfl
theorem include_open_eq :
    include_open = ['<', '!', '-', '-', ' ', '%', 'i', 'n', 'c', 'l', 'u', 'd', 'e', '.'] := rfl
theorem locale_open_eq : locale_open = ['%', 'l', 'o', 'c', 'a', 'l', 'e', '.'] := rfl

theorem include_close_not_prefix (x : Char) (xs rest : CStr)
    (h : ¬ include_close <:+: x :: xs) :
    ¬ include_close <+: x :: (xs ++ (include_close ++ rest)) := by
  intro hp
  rw [include_close_eq] at hp h
  rcases xs with _ | ⟨a, _ | ⟨b, _ | ⟨c, _ | ⟨d, xs⟩⟩⟩⟩
  · simp at hp
  · simp at hp
  · simp at hp
  · simp at hp
  · simp at hp
    obtain ⟨h1, h2, h3, h4, h5⟩ := hp
    subst h1 h2 h3 h4 h5
    exact h ⟨[], xs, by simp⟩

theorem strstr_include_close (n rest : CStr) (h : ¬ include_close <:+: n) :
    strstr (n ++ (include_close ++ rest)) include_close = some n.length := by
  induction n with
  | nil => simp [strstr, include_close_eq]
  | cons x xs ih =>
    have hxs : ¬ include_close <:+: xs := fun hi => h (hi.trans (List.suffix_cons x xs).isInfix)
    have hp := include_close_not_prefix x xs rest h
    show strstr (x :: (xs ++ (include_close ++ rest))) include_close = _
    simp only [strstr]
    rw [if_neg (by simpa using hp), ih hxs]
    rfl

theorem strstr_none_of_not_mem (s : CStr) (h : '%' ∉ s) : strstr s include_close = none := by
  induction s with
  | nil => simp [strstr, include_close_eq]
  | cons x xs ih =>
    have hx : x ≠ '%' := fun e => h (by simp [e])
    have hxs : '%' ∉ xs := fun e => h (by simp [e])
    simp only [strstr]
    rw [if_neg, ih hxs]; rfl
    rw [include_close_eq]
    simp
    intro e; exact absurd e.symm hx

/-! ## Single iterations -/

theorem step_done_nil (fs : FileSystem) (render : CStr → Outcome) (locale : Option Locale)
    (out : List Char) (rem : Nat) : step fs render locale ⟨[], out, rem⟩ = .done := by
  simp [step]

theorem step_done_full (fs : FileSystem) (render : CStr → Outcome) (locale : Option Locale)
    (input : CStr) (out : List Char) (rem : Nat) (h : rem ≤ 1) :
    step fs render locale ⟨input, out, rem⟩ = .done := by
  simp [step]; omega

theorem step_copy (fs : FileSystem) (render : CStr → Outcome) (locale : Option Locale)
    (c : Char) (cs : CStr) (out : List Char) (rem : Nat) (hrem : 1 < rem)
    (hi : ¬ include_open <+: c :: cs) (hl : ¬ locale_open <+: c :: cs) :
    step fs render locale ⟨c :: cs, out, rem⟩ = .next ⟨cs, out ++ [c], rem - 1⟩ := by
  simp [step, copy_char, hi, hl]; omega

theorem NoDirective.tail {c : Char} {cs : CStr} (h : NoDirective (c :: cs)) : NoDirective cs :=
  ⟨fun hi => h.1 (hi.trans (List.suffix_cons c cs).isInfix),
   fun hi => h.2 (hi.trans (List.suffix_cons c cs).isInfix)⟩

/-- On a text without directives the loop copies bytes until the text ends or
`remaining` is down to 1. -/
theorem scan_loop_literal (fs : FileSystem) (render : CStr → Outcome) (locale : Option Locale)
    (text : CStr) (h : NoDirective text) :
    ∀ (n : Nat) (out : List Char) (rem : Nat), text.length < n →
      scan_loop fs render locale n ⟨text, out, rem⟩ = .ok (out ++ text.take (rem - 1)) := by
  induction text with
  | nil =>
    intro n out rem hn
    cases n with
    | zero => simp at hn
    | succ m => simp [scan_loop, step_done_nil]
  | cons c cs ih =>
    intro n out rem hn
    cases n with
    | zero => simp at hn
    | succ m =>
      by_cases hrem : 1 < rem
      · have hs := step_copy fs render locale c cs out rem hrem
          (fun hp => h.1 hp.isInfix) (fun hp => h.2 hp.isInfix)
        simp only [scan_loop, hs]
        rw [ih h.tail m (out ++ [c]) (rem - 1) (by simpa using hn)]
        obtain ⟨r, rfl⟩ : ∃ r, rem = r + 2 := ⟨rem - 2, by omega⟩
        simp
      · have hs := step_done_full fs render locale (c :: cs) out rem (by omega)
        simp only [scan_loop, hs]
        have : rem - 1 = 0 := by omega
        simp [this]

/-! ## Iterations at a directive -/

theorem drop_include_open (s : CStr) : (include_open ++ s).drop 14 = s := by
  simp [include_open_eq]

theorem drop_locale_open (s : CStr) : (locale_open ++ s).drop 8 = s := by
  simp [locale_open_eq]

theorem locale_open_not_include (s : CStr) : ¬ include_open <+: locale_open ++ s := by
  simp [include_open_eq, locale_open_eq]

theorem step_include (fs : FileSystem) (render : CStr → Outcome) (locale : Option Locale)
    (n rest : CStr) (out : List Char) (rem : Nat) (hrem : 1 < rem) (hn : n.length < 255)
    (hfree : ¬ include_close <:+: n) :
    step fs render locale ⟨include_open ++ (n ++ (include_close ++ rest)), out, rem⟩ =
      match load_partial fs n with
      | some p =>
        match render p with
        | .ok r =>
          if r.length < rem then .next ⟨rest, out ++ r, rem - r.length⟩
          else .next ⟨rest, out, rem⟩
        | .overrun => .overrun
        | .diverge => .diverge
      | none => .next ⟨rest, out, rem⟩ := by
  have hne : include_open ++ (n ++ (include_close ++ rest)) ≠ [] := by simp [include_open_eq]
  have hp : include_open.isPrefixOf (include_open ++ (n ++ (include_close ++ rest))) = true := by
    simp
  have hclose : include_close.length = 5 := rfl
  unfold step
  simp only [hne, hp, drop_include_open, strstr_include_close n rest hfree, hn, if_true,
    List.take_left, false_or, not_lt, Nat.not_le.mpr hrem, if_false]
  have hd : List.drop (n.length + 5) (n ++ (include_close ++ rest)) = rest := by
    rw [← List.drop_drop, List.drop_left, ← hclose, List.drop_left]
  rw [hd]

theorem step_include_unterminated (fs : FileSystem) (render : CStr → Outcome)
    (locale : Option Locale) (s : CStr) (out : List Char) (rem : Nat) (hrem : 1 < rem)
    (hs : strstr s include_close = none) :
    step fs render locale ⟨include_open ++ s, out, rem⟩ =
      copy_char s ⟨include_open ++ s, out, rem⟩ := by
  have hne : include_open ++ s ≠ [] := by simp [include_open_eq]
  have hp : include_open.isPrefixOf (include_open ++ s) = true := by simp
  unfold step
  simp only [hne, hp, drop_include_open, hs, if_true, false_or, not_lt, Nat.not_le.mpr hrem,
    if_false]

theorem step_locale (fs : FileSystem) (render : CStr → Outcome) (l : Locale)
    (k rest : CStr) (out : List Char) (rem : Nat) (hrem : 1 < rem) (hk : k.length < 255)
    (hfree : '%' ∉ k) :
    step fs render (some l) ⟨locale_open ++ (k ++ '%' :: rest), out, rem⟩ =
      match get_locale_value (some l) k with
      | some v =>
        if v.length < rem then .next ⟨rest, out ++ v, rem - v.length⟩
        else .next ⟨rest, out, rem⟩
      | none => .next ⟨rest, out, rem⟩ := by
  have hne : locale_open ++ (k ++ '%' :: rest) ≠ [] := by simp [locale_open_eq]
  have hi : include_open.isPrefixOf (locale_open ++ (k ++ '%' :: rest)) = false := by
    rw [Bool.eq_false_iff]
    exact fun h => locale_open_not_include _ (List.isPrefixOf_iff_prefix.mp h)
  have hp : locale_open.isPrefixOf (locale_open ++ (k ++ '%' :: rest)) = true := by simp
  unfold step
  simp only [hne, hi, hp, drop_locale_open, strchr_append rest hfree, hk, if_true,
    List.take_left, false_or, not_lt, Nat.not_le.mpr hrem, if_false, Bool.false_eq_true]
  have hd : List.drop (k.length + 1) (k ++ '%' :: rest) = rest := by
    rw [← List.drop_drop, List.drop_left]; rfl
  rw [hd]

theorem step_inv {fs : FileSystem} {render : CStr → Outcome} {locale : Option Locale}
    {st st' : Scan} {cap : Nat} (hinv : st.output.length + st.remaining = cap ∧ 1 ≤ st.remaining)
    (h : step fs render locale st = .next st') :
    st'.output.length + st'.remaining = cap ∧ 1 ≤ st'.remaining := by
  obtain ⟨h1, h2⟩ := hinv
  have hcopy : ∀ input, 1 < st.remaining → copy_char input st = .next st' →
      st'.output.length + st'.remaining = cap ∧ 1 ≤ st'.remaining := by
    intro input hr hc
    unfold copy_char at hc
    split at hc
    · simp at hc
    · simp at hc; rw [← hc]; simp; omega
  unfold step at h
  split at h
  · simp at h
  rename_i hne
  have hr : 1 < st.remaining := by
    by_contra hc
    exact hne (Or.inr (by simpa using hc))
  split at h
  · simp only at h
    split at h
    · split at h
      · split at h
        · split at h
          · split at h <;> (simp at h; rw [← h]; simp; omega)
          · simp at h
          · simp at h
        · simp at h; rw [← h]; simp; omega
      · simp at h; rw [← h]; simp; omega
    · exact hcopy _ hr h
  · split at h
    · simp only at h
      split at h
      · split at h
        · split at h
          · split at h <;> (simp at h; rw [← h]; simp; omega)
          · simp at h; rw [← h]; simp; omega
        · simp at h; rw [← h]; simp; omega
      · exact hcopy _ hr h
    · exact hcopy _ hr h

theorem scan_loop_bound {fs : FileSystem} {render : CStr → Outcome} {locale : Option Locale}
    {n : Nat} {st : Scan} {result : CStr}
    (hinv : st.output.length + st.remaining = 65535 ∧ 1 ≤ st.remaining)
    (h : scan_loop fs render locale n st = .ok result) :
    result.length + 1 ≤ 65535 := by
  induction n generalizing st with
  | zero => simp [scan_loop] at h
  | succ n ih =>
    simp only [scan_loop] at h
    cases hs : step fs render locale st with
    | done =>
      rw [hs] at h
      simp at h
      rw [← h]; omega
    | overrun => rw [hs] at h; simp at h
    | diverge => rw [hs] at h; simp at h
    | next st' =>
      rw [hs] at h
      exact ih (step_inv hinv hs) h

theorem process_template_bound {fs : FileSystem} {depth : Nat} {content : CStr}
    {locale : Option Locale} {result : CStr}
    (h : process_template fs depth content locale = .ok result) :
    result.length + 1 ≤ MAX_CONTENT - 1 := by
  cases depth with
  | zero => simp [process_template] at h
  | succ d =>
    simp only [process_template] at h
    exact scan_loop_bound ⟨by simp, by simp⟩ h

theorem reach_inv {fs : FileSystem} {render : CStr → Outcome} {locale : Option Locale}
    {content : CStr} {st : Scan}
    (h : Relation.ReflTransGen (scan_next fs render locale) ⟨content, [], MAX_CONTENT - 1⟩ st) :
    st.output.length + st.remaining = MAX_CONTENT - 1 ∧ 1 ≤ st.remaining := by
  induction h with
  | refl => exact ⟨by simp, by simp⟩
  | tail _ hstep ih => exact step_inv ih hstep

/-! ## Locale lookup -/

theorem get_locale_value_scan_find (es : List LocaleEntry) (key : CStr) :
    get_locale_value.scan es key =
      (es.find? (fun e => decide (e.key = key))).map (fun e => e.value) := by
  induction es with
  | nil => rfl
  | cons e es ih =>
    by_cases he : e.key = key
    · simp [get_locale_value.scan, he]
    · simp [get_locale_value.scan, he, ih]

theorem get_locale_value_fits {locale : Option Locale} {key v : CStr}
    (h : get_locale_value locale key = some v) : v.length < 1024 := by
  cases locale with
  | none => simp [get_locale_value] at h
  | some l =>
    simp only [get_locale_value, get_locale_value_scan_find] at h
    cases hf : l.entries.find? (fun e => decide (e.key = key)) with
    | none => simp [hf] at h
    | some e =>
      simp [hf] at h
      rw [← h]; exact e.value_fits

/-- A locale directive that ends the text, with a table: one iteration emits
the value found, the next one ends the loop. -/
theorem scan_loop_locale_last (fs : FileSystem) (render : CStr → Outcome) (l : Locale)
    (k : CStr) (n : Nat) (hk : k.length < 255) (hfree : '%' ∉ k) :
    scan_loop fs render (some l) (n + 2) ⟨locale_open ++ (k ++ ['%']), [], 65535⟩ =
      .ok ((get_locale_value (some l) k).getD []) := by
  have hs := step_locale fs render l k [] [] 65535 (by omega) hk hfree
  simp only [scan_loop, hs]
  cases hv : get_locale_value (some l) k with
  | none => simp [step_done_nil]
  | some v =>
    have := get_locale_value_fits hv
    have hlt : v.length < 65535 := by omega
    simp [hlt, step_done_nil]

/-- A text without `%` holds no directive. -/
theorem noDirective_of_not_mem {s : CStr} (h : '%' ∉ s) : NoDirective s := by
  constructor
  · intro hi
    exact h (hi.subset (by simp [include_open_eq]))
  · intro hi
    exact h (hi.subset (by simp [locale_open_eq]))

theorem noDirective_replicate (n : Nat) : NoDirective (List.replicate n 'a') := by
  constructor
  · intro hi
    have := hi.subset (show '<' ∈ include_open by simp [include_open_eq])
    exact absurd (List.eq_of_mem_replicate this) (by decide)
  · intro hi
    have := hi.subset (show '%' ∈ locale_open by simp [locale_open_eq])
    exact absurd (List.eq_of_mem_replicate this) (by decide)

/-! ## Literal runs and the fallback after a marker -/

theorem scan_loop_succ (fs : FileSystem) (render : CStr → Outcome) (locale : Option Locale)
    (n : Nat) (st : Scan) :
    scan_loop fs render locale (n + 1) st =
      match step fs render locale st with
      | .done => .ok st.output
      | .next st' => scan_loop fs render locale n st'
      | .overrun => .overrun
      | .diverge => .diverge := rfl

/-- A run of bytes none of which starts a marker is copied byte by byte. -/
theorem scan_loop_copy_prefix (fs : FileSystem) (render : CStr → Outcome)
    (locale : Option Locale) (pre rest : CStr) (hpre : ∀ c ∈ pre, c ≠ '<' ∧ c ≠ '%') :
    ∀ (n : Nat) (out : List Char) (rem : Nat), pre.length < rem →
      scan_loop fs render locale (n + pre.length) ⟨pre ++ rest, out, rem⟩ =
        scan_loop fs render locale n ⟨rest, out ++ pre, rem - pre.length⟩ := by
  induction pre with
  | nil => intro n out rem _; simp
  | cons c cs ih =>
    intro n out rem hrem
    have hc := hpre c (by simp)
    have hi : ¬ include_open <+: c :: (cs ++ rest) := by
      rw [include_open_eq]; simp; intro e; exact absurd e.symm hc.1
    have hl : ¬ locale_open <+: c :: (cs ++ rest) := by
      rw [locale_open_eq]; simp; intro e; exact absurd e.symm hc.2
    simp only [List.length_cons] at hrem ⊢
    have hs := step_copy fs render locale c (cs ++ rest) out rem (by omega) hi hl
    rw [show n + (cs.length + 1) = (n + cs.length) + 1 by omega]
    simp only [List.cons_append, scan_loop, hs]
    rw [ih (fun x hx => hpre x (by simp [hx])) n (out ++ [c]) (rem - 1) (by omega)]
    simp [Nat.sub_sub, Nat.add_comm]

/-- After the fallback `*output++ = *input++` at a byte `c` followed by a text
without directives, the rest is copied as literal text. -/
theorem scan_loop_after_fallback (fs : FileSystem) (render : CStr → Outcome)
    (locale : Option Locale) (text body : CStr) (n : Nat)
    (hstep : step fs render locale ⟨text, [], 65535⟩ = copy_char body ⟨text, [], 65535⟩)
    (hne : body ≠ []) (hfree : NoDirective body) (hlen : body.length ≤ 65534)
    (hn : body.length ≤ n) :
    scan_loop fs render locale (n + 1) ⟨text, [], 65535⟩ = .ok body := by
  rcases body with _ | ⟨c, cs⟩
  · exact absurd rfl hne
  · simp only [scan_loop, hstep, copy_char]
    rw [scan_loop_literal fs render locale cs hfree.tail n _ _ (by simpa using hn)]
    simp only [List.length_cons] at hlen
    simp [List.take_of_length_le (show cs.length ≤ 65535 - 1 - 1 by omega)]

/-- An include marker that is never closed: the fourteen marker bytes are
skipped and what follows is copied. -/
theorem process_template_include_unterminated (fs : FileSystem) (depth : Nat)
    (locale : Option Locale) (s : CStr) (hne : s ≠ []) (hfree : '%' ∉ s)
    (hlen : s.length ≤ 65534) :
    process_template fs (depth + 1) (include_open ++ s) locale = .ok s := by
  simp only [process_template]
  have hl : (include_open ++ s).length + 1 = (s.length + 14) + 1 := by
    simp [include_open_eq]
  rw [hl, show MAX_CONTENT - 1 = 65535 from rfl]
  exact scan_loop_after_fallback fs _ locale _ s _
    (step_include_unterminated fs _ locale s [] 65535 (by omega) (strstr_none_of_not_mem s hfree))
    hne (noDirective_of_not_mem hfree) hlen (by omega)

/-- A directive-free text is copied up to the first 65534 bytes. -/
theorem process_template_literal (fs : FileSystem) (depth : Nat) (text : CStr)
    (locale : Option Locale) (hfree : NoDirective text) :
    process_template fs (depth + 1) text locale = .ok (text.take 65534) := by
  simp only [process_template]
  rw [scan_loop_literal fs _ locale text hfree _ _ _ (Nat.lt_succ_self _)]
  simp

/-! ## What an iteration does, apart from the space check -/

/-- Away from the end of the text and with `remaining > 1`, an iteration either
tries to append a string `w` fixed by the input (appending it when
`strlen(w) < remaining`) and moves on to a fixed cursor, or it overruns, or the
nested call does not return. A literal copy is the case `w = [c]`, a directive
that emits nothing the case `w = []`. -/
theorem step_action (fs : FileSystem) (render : CStr → Outcome) (locale : Option Locale)
    (input : CStr) (hne : input ≠ []) :
    (∃ after w, after.length < input.length ∧ ∀ out rem, 1 < rem →
      step fs render locale ⟨input, out, rem⟩ =
        if w.length < rem then .next ⟨after, out ++ w, rem - w.length⟩
        else .next ⟨after, out, rem⟩) ∨
    (∀ out rem, 1 < rem → step fs render locale ⟨input, out, rem⟩ = .overrun) ∨
    (∀ out rem, 1 < rem → step fs render locale ⟨input, out, rem⟩ = .diverge) := by
  have hcopy : ∀ body : CStr, body.length ≤ input.length →
      (∃ after w, after.length < input.length ∧ ∀ (out : List Char) (rem : Nat), 1 < rem →
        copy_char body ⟨input, out, rem⟩ =
          if w.length < rem then .next ⟨after, out ++ w, rem - w.length⟩
          else .next ⟨after, out, rem⟩) ∨
      (∀ (out : List Char) (rem : Nat), 1 < rem →
        copy_char body ⟨input, out, rem⟩ = .overrun) := by
    intro body hb
    rcases body with _ | ⟨c, cs⟩
    · right; intro out rem _; rfl
    · left
      refine ⟨cs, [c], by simp at hb; omega, ?_⟩
      intro out rem hrem
      simp [copy_char, hrem]
  have hskip : ∀ after : CStr, after.length < input.length →
      ∃ after' w, after'.length < input.length ∧ ∀ (out : List Char) (rem : Nat), 1 < rem →
        (Step.next ⟨after, out, rem⟩ : Step) =
          if w.length < rem then .next ⟨after', out ++ w, rem - w.length⟩
          else .next ⟨after', out, rem⟩ := by
    intro after ha
    refine ⟨after, [], ha, ?_⟩
    intro out rem hrem
    simp
  have hpos : 0 < input.length := List.length_pos.mpr hne
  by_cases hi : include_open.isPrefixOf input = true
  · have h14 := isPrefixOf_length_le hi
    simp [include_open_eq] at h14
    have hstep : ∀ out rem, 1 < rem → step fs render locale ⟨input, out, rem⟩ =
        match strstr (input.drop 14) include_close with
        | some name_len =>
          if name_len < 255 then
            match load_partial fs ((input.drop 14).take name_len) with
            | some p =>
              match render p with
              | .ok r =>
                if r.length < rem then
                  .next ⟨(input.drop 14).drop (name_len + 5), out ++ r, rem - r.length⟩
                else .next ⟨(input.drop 14).drop (name_len + 5), out, rem⟩
              | .overrun => .overrun
              | .diverge => .diverge
            | none => .next ⟨(input.drop 14).drop (name_len + 5), out, rem⟩
          else .next ⟨(input.drop 14).drop (name_len + 5), out, rem⟩
        | none => copy_char (input.drop 14) ⟨input, out, rem⟩ := by
      intro out rem hrem
      unfold step
      simp only [hne, hi, if_true, false_or, not_lt, Nat.not_le.mpr hrem, if_false]
    cases hs : strstr (input.drop 14) include_close with
    | none =>
      rcases hcopy (input.drop 14) (by simp) with ⟨after, w, ha, h⟩ | h
      · exact Or.inl ⟨after, w, ha, fun out rem hrem => by rw [hstep out rem hrem, hs]; exact h out rem hrem⟩
      · exact Or.inr (Or.inl fun out rem hrem => by rw [hstep out rem hrem, hs]; exact h out rem hrem)
    | some k =>
      have hafter : ((input.drop 14).drop (k + 5)).length < input.length := by
        simp; omega
      by_cases hk : k < 255
      · cases hl : load_partial fs ((input.drop 14).take k) with
        | none =>
          obtain ⟨after, w, ha, h⟩ := hskip _ hafter
          exact Or.inl ⟨after, w, ha, fun out rem hrem => by
            rw [hstep out rem hrem, hs]; simp only [hk, if_true, hl]; exact h out rem hrem⟩
        | some p =>
          cases hr : render p with
          | ok r =>
            exact Or.inl ⟨_, r, hafter, fun out rem hrem => by
              rw [hstep out rem hrem, hs]; simp only [hk, if_true, hl, hr]⟩
          | overrun =>
            exact Or.inr (Or.inl fun out rem hrem => by
              rw [hstep out rem hrem, hs]; simp only [hk, if_true, hl, hr])
          | diverge =>
            exact Or.inr (Or.inr fun out rem hrem => by
              rw [hstep out rem hrem, hs]; simp only [hk, if_true, hl, hr])
      · obtain ⟨after, w, ha, h⟩ := hskip _ hafter
        exact Or.inl ⟨after, w, ha, fun out rem hrem => by
          rw [hstep out rem hrem, hs]; simp only [hk, if_false]; exact h out rem hrem⟩
  · have hi := Bool.eq_false_iff.mpr hi
    by_cases hl : locale_open.isPrefixOf input = true
    · have h8 := isPrefixOf_length_le hl
      simp [locale_open_eq] at h8
      have hstep : ∀ out rem, 1 < rem → step fs render locale ⟨input, out, rem⟩ =
          match strchr (input.drop 8) '%', locale with
          | some key_len, some l =>
            if key_len < 255 then
              match get_locale_value (some l) ((input.drop 8).take key_len) with
              | some value =>
                if value.length < rem then
                  .next ⟨(input.drop 8).drop (key_len + 1), out ++ value, rem - value.length⟩
                else .next ⟨(input.drop 8).drop (key_len + 1), out, rem⟩
              | none => .next ⟨(input.drop 8).drop (key_len + 1), out, rem⟩
            else .next ⟨(input.drop 8).drop (key_len + 1), out, rem⟩
          | _, _ => copy_char (input.drop 8) ⟨input, out, rem⟩ := by
        intro out rem hrem
        unfold step
        simp only [hne, hi, hl, if_true, false_or, not_lt, Nat.not_le.mpr hrem, if_false,
          Bool.false_eq_true]
      have hfall : (∀ out rem, 1 < rem → step fs render locale ⟨input, out, rem⟩ =
          copy_char (input.drop 8) ⟨input, out, rem⟩) →
          (∃ after w, after.length < input.length ∧ ∀ out rem, 1 < rem →
            step fs render locale ⟨input, out, rem⟩ =
              if w.length < rem then .next ⟨after, out ++ w, rem - w.length⟩
              else .next ⟨after, out, rem⟩) ∨
          (∀ out rem, 1 < rem → step fs render locale ⟨input, out, rem⟩ = .overrun) ∨
          (∀ out rem, 1 < rem → step fs render locale ⟨input, out, rem⟩ = .diverge) := by
        intro hc
        rcases hcopy (input.drop 8) (by simp) with ⟨after, w, ha, h⟩ | h
        · exact Or.inl ⟨after, w, ha, fun out rem hrem => by
            rw [hc out rem hrem]; exact h out rem hrem⟩
        · exact Or.inr (Or.inl fun out rem hrem => by rw [hc out rem hrem]; exact h out rem hrem)
      cases hs : strchr (input.drop 8) '%' with
      | none => exact hfall fun out rem hrem => by rw [hstep out rem hrem, hs]
      | some k =>
        cases hloc : locale with
        | none =>
          subst hloc
          exact hfall fun out rem hrem => by rw [hstep out rem hrem, hs]
        | some l =>
          subst hloc
          have hafter : ((input.drop 8).drop (k + 1)).length < input.length := by
            simp; omega
          by_cases hk : k < 255
          · cases hv : get_locale_value (some l) ((input.drop 8).take k) with
            | none =>
              obtain ⟨after, w, ha, h⟩ := hskip _ hafter
              exact Or.inl ⟨after, w, ha, fun out rem hrem => by
                rw [hstep out rem hrem, hs]; simp only [hk, if_true, hv]; exact h out rem hrem⟩
            | some v =>
              exact Or.inl ⟨_, v, hafter, fun out rem hrem => by
                rw [hstep out rem hrem, hs]; simp only [hk, if_true, hv]⟩
          · obtain ⟨after, w, ha, h⟩ := hskip _ hafter
            exact Or.inl ⟨after, w, ha, fun out rem hrem => by
              rw [hstep out rem hrem, hs]; simp only [hk, if_false]; exact h out rem hrem⟩
    · have hl := Bool.eq_false_iff.mpr hl
      have hstep : ∀ out rem, 1 < rem → step fs render locale ⟨input, out, rem⟩ =
          copy_char input ⟨input, out, rem⟩ := by
        intro out rem hrem
        unfold step
        simp only [hne, hi, hl, false_or, not_lt, Nat.not_le.mpr hrem, if_false,
          Bool.false_eq_true]
      rcases hcopy input (le_refl _) with ⟨after, w, ha, h⟩ | h
      · exact Or.inl ⟨after, w, ha, fun out rem hrem => by
          rw [hstep out rem hrem]; exact h out rem hrem⟩
      · exact Or.inr (Or.inl fun out rem hrem => by rw [hstep out rem hrem]; exact h out rem hrem)

/-! ## Output already written is a frame -/

/-- The loop only appends to the output. -/
theorem scan_loop_output_prefix (fs : FileSystem) (render : CStr → Outcome)
    (locale : Option Locale) :
    ∀ (n : Nat) (st : Scan) (S : CStr), scan_loop fs render locale n st = .ok S →
      st.output <+: S := by
  intro n
  induction n with
  | zero => intro st S h; simp [scan_loop] at h
  | succ n ih =>
    intro st S h
    obtain ⟨input, out, rem⟩ := st
    rw [scan_loop_succ] at h
    by_cases hne : input = []
    · subst hne
      rw [step_done_nil] at h
      simp at h; simp [h]
    by_cases hrem : 1 < rem
    · rcases step_action fs render locale input hne with ⟨after, w, _, hs⟩ | hs | hs
      · rw [hs out rem hrem] at h
        by_cases hw : w.length < rem
        · rw [if_pos hw] at h
          exact (List.prefix_append out w).trans (ih ⟨after, out ++ w, rem - w.length⟩ S h)
        · rw [if_neg hw] at h
          exact ih ⟨after, out, rem⟩ S h
      · rw [hs out rem hrem] at h; simp at h
      · rw [hs out rem hrem] at h; simp at h
    · rw [step_done_full fs render locale input out rem (by omega)] at h
      simp at h; simp [h]

/-- If a run that starts with an empty buffer returns `S`, the same run started
after `E` was written returns `E ++ S`, as long as `E ++ S` has at most 65534
bytes. -/
theorem scan_loop_frame (fs : FileSystem) (render : CStr → Outcome) (locale : Option Locale)
    (E S : CStr) (hfit : E.length + S.length ≤ 65534) :
    ∀ (n : Nat) (st : Scan), st.output.length + st.remaining = 65535 →
      scan_loop fs render locale n st = .ok S →
      scan_loop fs render locale n ⟨st.input, E ++ st.output, st.remaining - E.length⟩ =
        .ok (E ++ S) := by
  intro n
  induction n with
  | zero => intro st _ h; simp [scan_loop] at h
  | succ n ih =>
    intro st hinv h
    obtain ⟨input, out, rem⟩ := st
    simp only at hinv ⊢
    have hpre := scan_loop_output_prefix fs render locale _ _ S h
    simp only at hpre
    rw [scan_loop_succ] at h ⊢
    by_cases hne : input = []
    · subst hne
      rw [step_done_nil] at h ⊢
      simp at h; simp [h]
    by_cases hrem : 1 < rem
    · by_cases hrem' : 1 < rem - E.length
      · rcases step_action fs render locale input hne with ⟨after, w, _, hs⟩ | hs | hs
        · rw [hs out rem hrem] at h
          rw [hs (E ++ out) (rem - E.length) hrem']
          by_cases hw : w.length < rem
          · rw [if_pos hw] at h
            have hp := scan_loop_output_prefix fs render locale _ _ S h
            have hlen := hp.length_le
            simp only [List.length_append] at hlen
            have hw' : w.length < rem - E.length := by omega
            rw [if_pos hw']
            have := ih ⟨after, out ++ w, rem - w.length⟩ (by simp; omega) h
            simp only at this
            rw [List.append_assoc, show rem - E.length - w.length = rem - w.length - E.length
              by omega]
            exact this
          · rw [if_neg hw] at h
            have hw' : ¬ w.length < rem - E.length := by omega
            rw [if_neg hw']
            exact ih ⟨after, out, rem⟩ hinv h
        · rw [hs out rem hrem] at h; simp at h
        · rw [hs out rem hrem] at h; simp at h
      · rw [step_done_full fs render locale input (E ++ out) (rem - E.length) (by omega)]
        have hlen : S.length ≤ out.length := by omega
        have hS : out = S := List.IsPrefix.eq_of_length_le hpre hlen
        simp [hS]
    · rw [step_done_full fs render locale input out rem (by omega)] at h
      rw [step_done_full fs render locale input (E ++ out) (rem - E.length) (by omega)]
      simp at h; simp [h]

/-- The include directive at the start of a text: the expansion `E` of the
partial (empty when the partial does not load) is written, then the rest is
scanned. -/
theorem scan_loop_include_first (fs : FileSystem) (render : CStr → Outcome)
    (locale : Option Locale) (n rest E S : CStr) (m : Nat)
    (hn : n.length < 255) (hfree : ¬ include_close <:+: n)
    (hE : match load_partial fs n with
      | some p => render p = .ok E
      | none => E = [])
    (hElen : E.length < 65535)
    (hS : scan_loop fs render locale (rest.length + 1) ⟨rest, [], 65535⟩ = .ok S)
    (hfit : E.length + S.length ≤ 65534) (hm : rest.length < m) :
    scan_loop fs render locale (m + 1)
        ⟨include_open ++ (n ++ (include_close ++ rest)), [], 65535⟩ = .ok (E ++ S) := by
  have hstep : step fs render locale
      ⟨include_open ++ (n ++ (include_close ++ rest)), [], 65535⟩ =
        .next ⟨rest, E, 65535 - E.length⟩ := by
    rw [step_include fs render locale n rest [] 65535 (by omega) hn hfree]
    cases hl : load_partial fs n with
    | none =>
      rw [hl] at hE
      subst hE
      rfl
    | some p =>
      rw [hl] at hE
      simp only at hE ⊢
      rw [hE]
      simp [hElen]
  rw [scan_loop_succ, hstep]
  simp only
  rw [scan_loop_fuel fs render locale m (rest.length + 1) _ hm (Nat.lt_succ_self _)]
  have := scan_loop_frame fs render locale E S hfit (rest.length + 1) ⟨rest, [], 65535⟩
    (by simp) hS
  simpa using this

/-! ## Nested calls -/

theorem strstr_split {s needle : CStr} {k : Nat} (h : strstr s needle = some k) :
    s = s.take k ++ (needle ++ s.drop (k + needle.length)) := by
  induction s generalizing k with
  | nil =>
    simp only [strstr] at h
    split at h
    · simp_all
    · simp at h
  | cons x xs ih =>
    simp only [strstr] at h
    split at h
    · rename_i hp
      obtain ⟨t, ht⟩ := List.isPrefixOf_iff_prefix.mp hp
      simp at h; subst h
      simp [← ht]
    · cases hx : strstr xs needle with
      | none => simp [hx] at h
      | some j =>
        simp [hx] at h
        subst h
        have := ih hx
        simp only [List.take_succ_cons, List.cons_append]
        rw [show j + 1 + needle.length = (j + needle.length) + 1 by omega, List.drop_succ_cons]
        exact congrArg (List.cons x) this

theorem copy_char_suffix {input : CStr} {st st' : Scan} (h : copy_char input st = .next st') :
    st'.input <:+ input := by
  unfold copy_char at h
  split at h
  · simp at h
  · simp at h; rw [← h]; exact List.suffix_cons _ _

/-- An iteration leaves the cursor inside the text it started from. -/
theorem step_suffix {fs : FileSystem} {render : CStr → Outcome} {locale : Option Locale}
    {st st' : Scan} (h : step fs render locale st = .next st') :
    st'.input <:+ st.input := by
  have hd : ∀ a b : Nat, (st.input.drop a).drop b <:+ st.input :=
    fun a b => (List.drop_suffix _ _).trans (List.drop_suffix _ _)
  unfold step at h
  split at h
  · simp at h
  split at h
  · simp only at h
    split at h
    · split at h
      · split at h
        · split at h
          · split at h <;> (simp only [Step.next.injEq] at h; rw [← h]; exact hd _ _)
          · simp at h
          · simp at h
        · simp only [Step.next.injEq] at h; rw [← h]; exact hd _ _
      · simp only [Step.next.injEq] at h; rw [← h]; exact hd _ _
    · exact (copy_char_suffix h).trans (List.drop_suffix _ _)
  · split at h
    · simp only at h
      split at h
      · split at h
        · split at h
          · split at h <;> (simp only [Step.next.injEq] at h; rw [← h]; exact hd _ _)
          · simp only [Step.next.injEq] at h; rw [← h]; exact hd _ _
        · simp only [Step.next.injEq] at h; rw [← h]; exact hd _ _
      · exact (copy_char_suffix h).trans (List.drop_suffix _ _)
    · exact copy_char_suffix h

theorem copy_char_ne_diverge (input : CStr) (st : Scan) : copy_char input st ≠ .diverge := by
  unfold copy_char
  split <;> simp

/-- An iteration fails to return only at an include directive whose partial
loads and whose nested rendering does not return. -/
theorem step_diverge {fs : FileSystem} {render : CStr → Outcome} {locale : Option Locale}
    {st : Scan} (h : step fs render locale st = .diverge) :
    ∃ n rest p, st.input = include_open ++ (n ++ (include_close ++ rest)) ∧
      load_partial fs n = some p ∧ render p = .diverge := by
  unfold step at h
  split at h
  · simp at h
  split at h
  · rename_i hp
    simp only at h
    split at h
    · rename_i k hk
      split at h
      · split at h
        · rename_i p hl
          split at h
          · split at h <;> simp at h
          · simp at h
          · rename_i hr
            obtain ⟨t, ht⟩ := List.isPrefixOf_iff_prefix.mp hp
            have hdrop : st.input.drop 14 = t := by rw [← ht]; exact drop_include_open t
            have hsplit := strstr_split hk
            refine ⟨(st.input.drop 14).take k, (st.input.drop 14).drop (k + 5), p, ?_, hl, hr⟩
            rw [← ht, ← hdrop]
            exact congrArg (fun x => include_open ++ x) hsplit
        · simp at h
      · simp at h
    · exact absurd h (copy_char_ne_diverge _ _)
  · split at h
    · simp only at h
      split at h
      · split at h
        · split at h
          · split at h <;> simp at h
          · simp at h
        · simp at h
      · exact absurd h (copy_char_ne_diverge _ _)
    · exact absurd h (copy_char_ne_diverge _ _)

/-- An iteration that returns does the same with any nested renderer that
agrees with the given one wherever that one returns. -/
theorem step_mono {fs : FileSystem} {render render' : CStr → Outcome} {locale : Option Locale}
    (hagree : ∀ p, render p ≠ .diverge → render' p = render p) (st : Scan)
    (h : step fs render locale st ≠ .diverge) :
    step fs render' locale st = step fs render locale st := by
  by_cases hdone : st.input = [] ∨ ¬ st.remaining > 1
  · unfold step
    rw [if_pos hdone, if_pos hdone]
  by_cases hi : include_open.isPrefixOf st.input = true
  · have hstep : ∀ r : CStr → Outcome, step fs r locale st =
        match strstr (st.input.drop 14) include_close with
        | some name_len =>
          if name_len < 255 then
            match load_partial fs ((st.input.drop 14).take name_len) with
            | some p =>
              match r p with
              | .ok q =>
                if q.length < st.remaining then
                  .next ⟨(st.input.drop 14).drop (name_len + 5), st.output ++ q,
                    st.remaining - q.length⟩
                else .next ⟨(st.input.drop 14).drop (name_len + 5), st.output, st.remaining⟩
              | .overrun => .overrun
              | .diverge => .diverge
            | none => .next ⟨(st.input.drop 14).drop (name_len + 5), st.output, st.remaining⟩
          else .next ⟨(st.input.drop 14).drop (name_len + 5), st.output, st.remaining⟩
        | none => copy_char (st.input.drop 14) st := by
      intro r
      unfold step
      rw [if_neg hdone, if_pos hi]
    rw [hstep render] at h
    rw [hstep render', hstep render]
    cases hk : strstr (st.input.drop 14) include_close with
    | none => rfl
    | some k =>
      rw [hk] at h
      simp only at h ⊢
      by_cases hlt : k < 255
      · rw [if_pos hlt] at h
        rw [if_pos hlt, if_pos hlt]
        cases hl : load_partial fs ((st.input.drop 14).take k) with
        | none => rfl
        | some p =>
          rw [hl] at h
          simp only at h ⊢
          have hr : render p ≠ .diverge := by
            intro hr
            rw [hr] at h
            exact h rfl
          rw [hagree p hr]
      · rw [if_neg hlt, if_neg hlt]
  · unfold step
    rw [if_neg hdone, if_neg hi, if_neg hdone, if_neg hi]

theorem scan_loop_mono {fs : FileSystem} {render render' : CStr → Outcome}
    {locale : Option Locale} (hagree : ∀ p, render p ≠ .diverge → render' p = render p) :
    ∀ (n : Nat) (st : Scan), scan_loop fs render locale n st ≠ .diverge →
      scan_loop fs render' locale n st = scan_loop fs render locale n st := by
  intro n
  induction n with
  | zero => intro st h; exact absurd rfl h
  | succ n ih =>
    intro st h
    rw [scan_loop_succ] at h
    have hs : step fs render locale st ≠ .diverge := by
      intro hs
      rw [hs] at h
      exact h rfl
    rw [scan_loop_succ, scan_loop_succ, step_mono hagree st hs]
    cases hst : step fs render locale st with
    | done => rfl
    | overrun => rfl
    | diverge => rfl
    | next st' =>
      rw [hst] at h
      exact ih st' h

/-- More nesting fuel does not change a call that returns. -/
theorem process_template_mono (fs : FileSystem) (locale : Option Locale) :
    ∀ (d : Nat) (content : CStr), process_template fs d content locale ≠ .diverge →
      process_template fs (d + 1) content locale = process_template fs d content locale := by
  intro d
  induction d with
  | zero => intro content h; exact absurd rfl h
  | succ d ih =>
    intro content h
    simp only [process_template] at h ⊢
    exact scan_loop_mono (fun p hp => ih p hp) _ _ h

theorem process_template_mono_le (fs : FileSystem) (locale : Option Locale) (content : CStr)
    (d d' : Nat) (hle : d ≤ d') (h : process_template fs d content locale ≠ .diverge) :
    process_template fs d' content locale = process_template fs d content locale := by
  induction d' with
  | zero =>
    have : d = 0 := by omega
    rw [this]
  | succ e ih =>
    by_cases hd : d = e + 1
    · rw [hd]
    · have he := ih (by omega)
      rw [process_template_mono fs locale e content (by rw [he]; exact h), he]

/-- The loop does not diverge when no nested call it can reach diverges. -/
theorem scan_loop_not_diverge {fs : FileSystem} {render : CStr → Outcome}
    {locale : Option Locale} {content : CStr}
    (hnested : ∀ (pre n rest p : CStr),
      content = pre ++ (include_open ++ (n ++ (include_close ++ rest))) →
      load_partial fs n = some p → render p ≠ .diverge) :
    ∀ (m : Nat) (st : Scan), st.input <:+ content → st.input.length < m →
      scan_loop fs render locale m st ≠ .diverge := by
  intro m
  induction m with
  | zero => intro st _ h; omega
  | succ m ih =>
    intro st hsuf hlen
    rw [scan_loop_succ]
    cases hst : step fs render locale st with
    | done => simp
    | overrun => simp
    | diverge =>
      obtain ⟨n, rest, p, hin, hl, hr⟩ := step_diverge hst
      obtain ⟨pre, hpre⟩ := hsuf
      exact absurd hr (hnested pre n rest p (by rw [← hpre, hin]) hl)
    | next st' =>
      have := step_input_lt hst
      exact ih st' ((step_suffix hst).trans hsuf) (by omega)

/-- With a rank that falls along every include, the call does not diverge with
nesting fuel above the rank of the text. -/
theorem process_template_not_diverge (fs : FileSystem) (locale : Option Locale)
    (rank : CStr → Nat)
    (hrank : ∀ (pre n rest p : CStr), load_partial fs n = some p →
      rank p < rank (pre ++ (include_open ++ (n ++ (include_close ++ rest))))) :
    ∀ (d : Nat) (content : CStr), rank content < d →
      process_template fs d content locale ≠ .diverge := by
  intro d
  induction d with
  | zero => intro content h; omega
  | succ d ih =>
    intro content hlt
    simp only [process_template]
    refine scan_loop_not_diverge ?_ _ _ (List.suffix_refl _) (Nat.lt_succ_self _)
    intro pre n rest p hc hl
    have := hrank pre n rest p hl
    simp only at hc
    rw [← hc] at this
    exact ih p (by omega)

theorem copy_char_overrun {input : CStr} {st : Scan} (h : copy_char input st = .overrun) :
    input = [] := by
  unfold copy_char at h
  split at h
  · rfl
  · simp at h

/-- An iteration overruns only when the cursor is at an opening marker that
ends the text, or at an include directive whose nested rendering overruns. -/
theorem step_overrun {fs : FileSystem} {render : CStr → Outcome} {locale : Option Locale}
    {st : Scan} (h : step fs render locale st = .overrun) :
    st.input = include_open ∨ st.input = locale_open ∨
      ∃ n rest p, st.input = include_open ++ (n ++ (include_close ++ rest)) ∧
        load_partial fs n = some p ∧ render p = .overrun := by
  unfold step at h
  split at h
  · simp at h
  rename_i hdone
  split at h
  · rename_i hp
    obtain ⟨t, ht⟩ := List.isPrefixOf_iff_prefix.mp hp
    have hdrop : st.input.drop 14 = t := by rw [← ht]; exact drop_include_open t
    simp only at h
    split at h
    · rename_i k hk
      split at h
      · split at h
        · rename_i p hl
          split at h
          · split at h <;> simp at h
          · rename_i hr
            have hsplit := strstr_split hk
            refine Or.inr (Or.inr
              ⟨(st.input.drop 14).take k, (st.input.drop 14).drop (k + 5), p, ?_, hl, hr⟩)
            rw [← ht, ← hdrop]
            exact congrArg (fun x => include_open ++ x) hsplit
          · simp at h
        · simp at h
      · simp at h
    · have := copy_char_overrun h
      rw [hdrop] at this
      left
      rw [← ht, this, List.append_nil]
  · split at h
    · rename_i hp
      obtain ⟨t, ht⟩ := List.isPrefixOf_iff_prefix.mp hp
      have hdrop : st.input.drop 8 = t := by rw [← ht]; exact drop_locale_open t
      simp only at h
      split at h
      · split at h
        · split at h
          · split at h <;> simp at h
          · simp at h
        · simp at h
      · have := copy_char_overrun h
        rw [hdrop] at this
        right; left
        rw [← ht, this, List.append_nil]
    · have := copy_char_overrun h
      exact absurd (Or.inl this) hdone

/-- The loop does not overrun when the text does not end right after an
opening marker and no nested call it can reach overruns. -/
theorem scan_loop_not_overrun {fs : FileSystem} {render : CStr → Outcome}
    {locale : Option Locale} {content : CStr} (hend : ¬ EndsAtMarker content)
    (hnested : ∀ (pre n rest p : CStr),
      content = pre ++ (include_open ++ (n ++ (include_close ++ rest))) →
      load_partial fs n = some p → render p ≠ .overrun) :
    ∀ (m : Nat) (st : Scan), st.input <:+ content →
      scan_loop fs render locale m st ≠ .overrun := by
  intro m
  induction m with
  | zero => intro st _; simp [scan_loop]
  | succ m ih =>
    intro st hsuf
    rw [scan_loop_succ]
    cases hst : step fs render locale st with
    | done => simp
    | diverge => simp
    | overrun =>
      rcases step_overrun hst with hin | hin | ⟨n, rest, p, hin, hl, hr⟩
      · exact absurd (Or.inl (hin ▸ hsuf)) hend
      · exact absurd (Or.inr (hin ▸ hsuf)) hend
      · obtain ⟨pre, hpre⟩ := hsuf
        exact absurd hr (hnested pre n rest p (by rw [← hpre, hin]) hl)
    | next st' => exact ih st' ((step_suffix hst).trans hsuf)

/-- With a rank that falls along every include, and neither the text nor any
partial ending right after an opening marker, the call returns a string with
nesting fuel above the rank of the text. -/
theorem process_template_ok (fs : FileSystem) (locale : Option Locale)
    (rank : CStr → Nat)
    (hrank : ∀ (pre n rest p : CStr), load_partial fs n = some p →
      rank p < rank (pre ++ (include_open ++ (n ++ (include_close ++ rest)))))
    (hpartials : ∀ (n p : CStr), load_partial fs n = some p → ¬ EndsAtMarker p) :
    ∀ (d : Nat) (content : CStr), rank content < d → ¬ EndsAtMarker content →
      ∃ result, process_template fs d content locale = .ok result := by
  intro d
  induction d with
  | zero => intro content h; omega
  | succ d ih =>
    intro content hlt hend
    have hnested : ∀ (pre n rest p : CStr),
        content = pre ++ (include_open ++ (n ++ (include_close ++ rest))) →
        load_partial fs n = some p → ∃ result, process_template fs d p locale = .ok result := by
      intro pre n rest p hc hl
      have := hrank pre n rest p hl
      rw [← hc] at this
      exact ih p (by omega) (hpartials n p hl)
    have h1 : process_template fs (d + 1) content locale ≠ .diverge := by
      simp only [process_template]
      refine scan_loop_not_diverge ?_ _ _ (List.suffix_refl _) (Nat.lt_succ_self _)
      intro pre n rest p hc hl
      obtain ⟨r, hr⟩ := hnested pre n rest p hc hl
      rw [hr]; simp
    have h2 : process_template fs (d + 1) content locale ≠ .overrun := by
      simp only [process_template]
      refine scan_loop_not_overrun hend ?_ _ _ (List.suffix_refl _)
      intro pre n rest p hc hl
      obtain ⟨r, hr⟩ := hnested pre n rest p hc hl
      rw [hr]; simp
    cases hres : process_template fs (d + 1) content locale with
    | ok result => exact ⟨result, rfl⟩
    | overrun => exact absurd hres h2
    | diverge => exact absurd hres h1

/-- A text that includes a partial whose nested rendering diverges diverges
too. -/
theorem process_template_include_diverge (fs : FileSystem) (locale : Option Locale)
    (d : Nat) (n rest p : CStr) (hn : n.length < 255) (hfree : ¬ include_close <:+: n)
    (hl : load_partial fs n = some p) (hp : process_template fs d p locale = .diverge) :
    process_template fs (d + 1) (include_open ++ (n ++ (include_close ++ rest))) locale =
      .diverge := by
  simp only [process_template]
  rw [scan_loop_succ, show MAX_CONTENT - 1 = 65535 from rfl,
    step_include fs _ locale n rest [] 65535 (by omega) hn hfree, hl]
  simp only
  rw [hp]

theorem load_partial_fs_single {n p : CStr} (h : load_partial fs_single n = some p) :
    p = "%locale.x%".toList := by
  unfold load_partial load_file fs_single at h
  split at h
  · simp at h
  · rename_i bytes hb
    split at hb
    · simp at hb
      subst hb
      simp at h
      rw [← h.2]
      rfl
    · simp at hb

theorem include_rank_fs_single (pre n rest p : CStr) (h : load_partial fs_single n = some p) :
    include_rank p < include_rank (pre ++ (include_open ++ (n ++ (include_close ++ rest)))) := by
  rw [load_partial_fs_single h]
  have h1 : include_rank "%locale.x%".toList = 0 := by decide
  have h2 : include_rank (pre ++ (include_open ++ (n ++ (include_close ++ rest)))) = 1 := by
    unfold include_rank
    rw [if_pos ⟨pre, n ++ (include_close ++ rest), by simp⟩]
  rw [h1, h2]
  exact Nat.zero_lt_one

/-! ## The locale file -/

theorem first_occurrence {s : CStr} {c : Char} (h : c ∈ s) :
    ∃ a b, s = a ++ c :: b ∧ c ∉ a := by
  induction s with
  | nil => simp at h
  | cons x xs ih =>
    by_cases hx : x = c
    · exact ⟨[], xs, by simp [hx], by simp⟩
    · have hxs : c ∈ xs := by
        rcases List.mem_cons.mp h with e | e
        · exact absurd e.symm hx
        · exact e
      obtain ⟨a, b, hab, ha⟩ := ih hxs
      refine ⟨x :: a, b, by simp [hab], ?_⟩
      intro hm
      rcases List.mem_cons.mp hm with e | e
      · exact hx e.symm
      · exact ha e

theorem drop_append_cons (a : CStr) (c : Char) (b : CStr) :
    (a ++ c :: b).drop (a.length + 1) = b := by
  rw [← List.drop_drop, List.drop_left]; rfl

theorem parse_step_item (pre : CStr) (it : Item) (tail : CStr) (entries : List LocaleEntry)
    (hpre : '"' ∉ pre) (hit : it.well_formed) (hcount : entries.length < MAX_LOCALE_ENTRIES) :
    ∃ e : LocaleEntry, e.key = it.key ∧ e.value = it.value ∧
      parse_step ⟨pre ++ (it.text ++ tail), entries⟩ = .next ⟨it.post ++ tail, entries ++ [e]⟩ := by
  obtain ⟨hk0, hk, hkq, hmc, hmq, hv, hvq, hpq⟩ := hit
  obtain ⟨a, b, hab, ha⟩ := first_occurrence hmc
  have hbq : '"' ∉ b := fun h => hmq (by rw [hab]; simp [h])
  refine ⟨⟨it.key, it.value, by omega, by omega⟩, rfl, rfl, ?_⟩
  have hne : pre ++ (it.text ++ tail) ≠ [] := by simp [Item.text]
  have htext : pre ++ (it.text ++ tail) =
      pre ++ '"' :: (it.key ++ '"' :: (it.mid ++ '"' :: (it.value ++ '"' :: (it.post ++ tail)))) := by
    simp [Item.text]
  have h1 : strchr (pre ++ (it.text ++ tail)) '"' = some pre.length := by
    rw [htext]; exact strchr_append _ hpre
  have hq1 : (pre ++ (it.text ++ tail)).drop (pre.length + 1) =
      it.key ++ '"' :: (it.mid ++ '"' :: (it.value ++ '"' :: (it.post ++ tail))) := by
    rw [htext]; exact drop_append_cons _ _ _
  have h2 : strchr (it.key ++ '"' :: (it.mid ++ '"' :: (it.value ++ '"' :: (it.post ++ tail))))
      '"' = some it.key.length := strchr_append _ hkq
  have hkey : ¬ (it.key.length ≥ 256 ∨ it.key.length = 0) := by
    have : it.key.length ≠ 0 := fun h => hk0 (List.length_eq_zero.mp h)
    omega
  have h3 : strchr ('"' :: (it.mid ++ '"' :: (it.value ++ '"' :: (it.post ++ tail)))) ':' =
      some (a.length + 1) := by
    have : strchr (it.mid ++ '"' :: (it.value ++ '"' :: (it.post ++ tail))) ':' =
        some a.length := by
      rw [hab, List.append_assoc]; exact strchr_append _ ha
    simp [strchr, this]
  have hcolon : ('"' :: (it.mid ++ '"' :: (it.value ++ '"' :: (it.post ++ tail)))).drop
      (a.length + 1) = ':' :: (b ++ '"' :: (it.value ++ '"' :: (it.post ++ tail))) := by
    rw [hab]; simp
  have h4 : strchr (':' :: (b ++ '"' :: (it.value ++ '"' :: (it.post ++ tail)))) '"' =
      some (b.length + 1) := by
    have : strchr (b ++ '"' :: (it.value ++ '"' :: (it.post ++ tail))) '"' = some b.length :=
      strchr_append _ hbq
    simp [strchr, this]
  have hq3 : (':' :: (b ++ '"' :: (it.value ++ '"' :: (it.post ++ tail)))).drop
      (b.length + 1 + 1) = it.value ++ '"' :: (it.post ++ tail) := by
    simp
  have h5 : strchr (it.value ++ '"' :: (it.post ++ tail)) '"' = some it.value.length :=
    strchr_append _ hvq
  have hvalue : ¬ it.value.length ≥ 1024 := by omega
  unfold parse_step
  simp only [hne, hcount, h1, hq1, h2, hkey, List.drop_left, h3, hcolon, h4, hq3, h5, hvalue,
    List.take_left, not_true_eq_false, or_self, if_false, dite_false, List.drop_succ_cons,
    List.drop_zero]

theorem parse_step_no_quote (pos : CStr) (entries : List LocaleEntry) (h : '"' ∉ pos) :
    parse_step ⟨pos, entries⟩ = .stop := by
  unfold parse_step
  split
  · rfl
  · simp only [strchr_none h]

theorem Item.text_length (it : Item) :
    it.text.length = it.key.length + it.mid.length + it.value.length + it.post.length + 4 := by
  simp [Item.text]; omega

theorem parse_loop_items :
    ∀ (items : List Item) (pre : CStr) (entries : List LocaleEntry) (n : Nat),
      '"' ∉ pre → (∀ it ∈ items, it.well_formed) →
      entries.length + items.length ≤ MAX_LOCALE_ENTRIES →
      (pre ++ items_text items).length < n →
      ∃ es, parse_loop n ⟨pre ++ items_text items, entries⟩ = some es ∧
        es.map (fun e => (e.key, e.value)) =
          entries.map (fun e => (e.key, e.value)) ++ items.map (fun it => (it.key, it.value)) := by
  intro items
  induction items with
  | nil =>
    intro pre entries n hpre _ _ hn
    cases n with
    | zero => simp at hn
    | succ m =>
      refine ⟨entries, ?_, by simp⟩
      simp only [items_text, List.append_nil, parse_loop, parse_step_no_quote pre entries hpre]
  | cons it rest ih =>
    intro pre entries n hpre hitems hcount hn
    cases n with
    | zero => simp at hn
    | succ m =>
      have hit := hitems it (by simp)
      simp only [List.length_cons] at hcount
      obtain ⟨e, hek, hev, hstep⟩ :=
        parse_step_item pre it (items_text rest) entries hpre hit (by omega)
      have hlen : (it.post ++ items_text rest).length < m := by
        simp only [items_text, List.length_append, Item.text_length] at hn ⊢
        omega
      obtain ⟨es, hes, hmap⟩ := ih it.post (entries ++ [e]) m hit.2.2.2.2.2.2.2
        (fun x hx => hitems x (by simp [hx])) (by simp; omega) hlen
      refine ⟨es, ?_, ?_⟩
      · simp only [items_text, parse_loop, hstep]
        exact hes
      · rw [hmap]
        simp [hek, hev]

/-! ## The claims -/

/-- C4. Identity law: a text of at most 65534 bytes that holds neither
`<!-- %include.` nor `%locale.` is returned unchanged, whatever the partial
directory and the locale table (or its absence) are, so neither is consulted. -/
theorem C4_identity (fs : FileSystem) (depth : Nat) (text : CStr) (locale : Option Locale)
    (hlen : text.length ≤ 65534) (hfree : NoDirective text) :
    process_template fs (depth + 1) text locale = .ok text := by
  simp only [process_template]
  rw [scan_loop_literal fs _ locale text hfree _ _ _ (Nat.lt_succ_self _)]
  simp [List.take_of_length_le hlen]

theorem C4_identity_witness :
    ("Hi".toList.length ≤ 65534 ∧ NoDirective "Hi".toList) ∧
      process_template fs_demo 1 "Hi".toList (some locale_demo) = .ok "Hi".toList :=
  ⟨by decide, C4_identity fs_demo 0 "Hi".toList (some locale_demo) (by decide) (by decide)⟩

/-- C6. Bounded output: a string `process_template` returns has at most
`MAX_CONTENT - 1` bytes (in fact at most `MAX_CONTENT - 2`), and every state the
scanning loop reaches from its initial state satisfies
`bytes_written + remaining = MAX_CONTENT - 1` with `remaining ≥ 1`, whatever the
nested calls return; so every write stays inside the `MAX_CONTENT`-byte buffer. -/
theorem C6_bounded_output (fs : FileSystem) (depth : Nat) (content : CStr)
    (locale : Option Locale) (result : CStr)
    (h : process_template fs depth content locale = .ok result) :
    result.length ≤ MAX_CONTENT - 1 ∧ result.length + 1 ≤ MAX_CONTENT - 1 ∧
      ∀ (render : CStr → Outcome) (st : Scan),
        Relation.ReflTransGen (scan_next fs render locale) ⟨content, [], MAX_CONTENT - 1⟩ st →
          st.output.length + st.remaining = MAX_CONTENT - 1 ∧ 1 ≤ st.remaining := by
  have hb := process_template_bound h
  exact ⟨by omega, hb, fun _ _ hr => reach_inv hr⟩

theorem C6_bounded_output_witness :
    process_template fs_demo 2 "<!-- %include.p% -->".toList (some locale_demo)
        = .ok "V".toList ∧
      ("V".toList.length ≤ MAX_CONTENT - 1 ∧ "V".toList.length + 1 ≤ MAX_CONTENT - 1 ∧
        ∀ (render : CStr → Outcome) (st : Scan),
          Relation.ReflTransGen (scan_next fs_demo render (some locale_demo))
            ⟨"<!-- %include.p% -->".toList, [], MAX_CONTENT - 1⟩ st →
            st.output.length + st.remaining = MAX_CONTENT - 1 ∧ 1 ≤ st.remaining) :=
  ⟨by decide, C6_bounded_output fs_demo 2 "<!-- %include.p% -->".toList (some locale_demo)
    "V".toList (by decide)⟩

/-- C2. Locale variable with a table: for a key `k` without `%` and shorter than
255 bytes, rendering `%locale.k%` against table `l` gives the value of the first
entry of `l` whose key equals `k`, and the empty string when there is none. -/
theorem C2_locale_lookup (fs : FileSystem) (depth : Nat) (l : Locale) (k : CStr)
    (hk : k.length < 255) (hfree : '%' ∉ k) :
    process_template fs (depth + 1) (locale_open ++ (k ++ ['%'])) (some l) =
      .ok (match l.entries.find? (fun e => decide (e.key = k)) with
        | some e => e.value
        | none => []) := by
  simp only [process_template]
  have hlen : (locale_open ++ (k ++ ['%'])).length + 1 = (k.length + 8) + 2 := by
    simp [locale_open_eq]
  rw [hlen, show MAX_CONTENT - 1 = 65535 from rfl, scan_loop_locale_last fs _ l k _ hk hfree]
  simp only [get_locale_value, get_locale_value_scan_find]
  cases l.entries.find? (fun e => decide (e.key = k)) <;> rfl

theorem C2_locale_lookup_witness :
    ("x".toList.length < 255 ∧ '%' ∉ "x".toList) ∧
      process_template fs_demo 1 (locale_open ++ ("x".toList ++ ['%'])) (some locale_demo) =
        .ok (match locale_demo.entries.find? (fun e => decide (e.key = "x".toList)) with
          | some e => e.value
          | none => []) :=
  ⟨by decide, C2_locale_lookup fs_demo 0 locale_demo "x".toList (by decide) (by decide)⟩

/-- C5, the code at the specification's own input. The unterminated
`<!-- %include.foo` renders to `foo`: the fourteen bytes of the marker are
skipped, not kept as literal text. -/
theorem C5_unterminated_include_drops_marker :
    process_template fs_demo 1 "<!-- %include.foo".toList none = .ok "foo".toList ∧
      process_template fs_demo 1 "<!-- %include.foo".toList (some locale_demo)
        = .ok "foo".toList := by
  decide

/-- C10, the code at texts that end right after an opening marker. The
fallback copies the terminator and moves the cursor past it, with or without a
locale table. -/
theorem C10_cursor_passes_terminator :
    process_template fs_demo 1 "%locale.".toList none = .overrun ∧
      process_template fs_demo 1 "%locale.".toList (some locale_demo) = .overrun ∧
      process_template fs_demo 1 "<!-- %include.".toList none = .overrun ∧
      process_template fs_demo 1 "Hi %locale.".toList (some locale_demo) = .overrun ∧
      step fs_demo (fun _ => .diverge) none ⟨"%locale.".toList, [], 65535⟩ = .overrun := by
  decide

/-- C7, counterexample. A text of 65533 bytes followed by `%locale.k%`, with
`{k: "VV"}`: the expansion would be 65535 bytes; the call succeeds and returns
the 65533 bytes with the value left out. -/
theorem C7_counterexample :
    process_template fs_demo 1 (List.replicate 65533 'a' ++ "%locale.k%".toList)
        (some locale_wide) = .ok (List.replicate 65533 'a') := by
  simp only [process_template]
  have hl : (List.replicate 65533 'a' ++ "%locale.k%".toList).length + 1
      = 11 + (List.replicate 65533 'a').length := by
    rw [List.length_append, List.length_replicate]; rfl
  rw [hl, scan_loop_copy_prefix fs_demo _ _ _ _
    (fun c hc => by rw [List.eq_of_mem_replicate hc]; decide) 11 [] _
    (by rw [List.length_replicate]; decide)]
  rw [List.length_replicate, List.nil_append]
  have hs := step_locale fs_demo (fun _ => Outcome.diverge)
    locale_wide "k".toList [] (List.replicate 65533 'a') 2 (by omega) (by decide) (by decide)
  have hv : get_locale_value (some locale_wide) "k".toList = some ['V', 'V'] := by decide
  rw [hv] at hs
  dsimp only at hs
  rw [if_neg (by decide)] at hs
  have h2 : MAX_CONTENT - 1 - 65533 = 2 := rfl
  have ht : "%locale.k%".toList = locale_open ++ ("k".toList ++ '%' :: []) := rfl
  rw [h2, ht, show (11 : Nat) = 9 + 1 + 1 from rfl, scan_loop_succ, hs]
  dsimp only
  rw [scan_loop_succ, step_done_nil]

/-- C7, amended. There is no `ContentTooLarge` condition: a directive-free text
longer than 65534 bytes is rendered successfully to its first 65534 bytes. -/
theorem C7_silent_truncation (fs : FileSystem) (depth : Nat) (text : CStr)
    (locale : Option Locale) (hfree : NoDirective text) (hlen : 65534 < text.length) :
    process_template fs (depth + 1) text locale = .ok (text.take 65534) ∧
      (text.take 65534).length < text.length := by
  refine ⟨process_template_literal fs depth text locale hfree, ?_⟩
  rw [List.length_take]; omega

theorem C7_silent_truncation_witness :
    (NoDirective (List.replicate 65535 'a') ∧ 65534 < (List.replicate 65535 'a').length) ∧
      (process_template fs_demo 1 (List.replicate 65535 'a') none
          = .ok ((List.replicate 65535 'a').take 65534) ∧
        ((List.replicate 65535 'a').take 65534).length < (List.replicate 65535 'a').length) :=
  ⟨⟨noDirective_replicate 65535, by rw [List.length_replicate]; decide⟩,
    C7_silent_truncation fs_demo 0 (List.replicate 65535 'a') none (noDirective_replicate 65535)
      (by rw [List.length_replicate]; decide)⟩

/-- C1. Include directive with locale propagation: for a partial name `n`
shorter than 255 bytes that does not contain `% -->`, rendering
`<!-- %include.n% -->` followed by `rest` gives `E ++ S`, where `S` is the
rendering of `rest` with the same locale and `E` is the rendering of the partial
`n` with the same locale when `load_partial` resolves `n`, and the empty string
when it does not; the nested rendering is assumed to return and `E ++ S` to have
at most 65534 bytes. -/
theorem C1_include_directive (fs : FileSystem) (depth : Nat) (n rest : CStr)
    (locale : Option Locale) (E S : CStr)
    (hn : n.length < 255) (hfree : ¬ include_close <:+: n)
    (hE : match load_partial fs n with
      | some p => process_template fs depth p locale = .ok E
      | none => E = [])
    (hS : process_template fs (depth + 1) rest locale = .ok S)
    (hfit : E.length + S.length ≤ 65534) :
    process_template fs (depth + 1) (include_open ++ (n ++ (include_close ++ rest))) locale =
      .ok (E ++ S) := by
  simp only [process_template] at hS ⊢
  have hElen : E.length < 65535 := by omega
  exact scan_loop_include_first fs _ locale n rest E S _ hn hfree hE hElen hS hfit
    (by simp [include_open_eq]; omega)

theorem C1_include_directive_witness :
    ("p".toList.length < 255 ∧ ¬ include_close <:+: "p".toList ∧
      load_partial fs_demo "p".toList = some "%locale.x%".toList ∧
      process_template fs_demo 1 "%locale.x%".toList (some locale_demo) = .ok "V".toList ∧
      process_template fs_demo 2 [] (some locale_demo) = .ok [] ∧
      "V".toList.length + ([] : CStr).length ≤ 65534) ∧
    process_template fs_demo 2 "<!-- %include.p% -->".toList (some locale_demo)
      = .ok "V".toList :=
  ⟨by decide, C1_include_directive fs_demo 1 "p".toList [] (some locale_demo) "V".toList []
    (by decide) (by decide)
    (show process_template fs_demo 1 "%locale.x%".toList (some locale_demo) = .ok "V".toList
      by decide)
    (by decide) (by decide)⟩

/-- C8, counterexample. A partial that includes itself, and two partials that
include each other: in the embedding, where every allocation succeeds, rendering
a text that includes them has outcome `diverge` for every nesting fuel. No
nesting limit ends the recursion and no failure is reported. -/
theorem C8_counterexample :
    (¬ ∃ depth, process_template fs_demo depth "<!-- %include.self% -->".toList none
        ≠ .diverge) ∧
      (¬ ∃ depth, process_template fs_demo depth "<!-- %include.p1% -->".toList none
        ≠ .diverge) := by
  have hself : ∀ d, process_template fs_demo d "<!-- %include.self% -->".toList none
      = .diverge := by
    intro d
    induction d with
    | zero => rfl
    | succ d ih =>
      exact process_template_include_diverge fs_demo none d "self".toList [] _
        (by decide) (by decide) (by decide) ih
  have hpair : ∀ d, process_template fs_demo d "<!-- %include.p1% -->".toList none
        = .diverge ∧
      process_template fs_demo d "<!-- %include.p2% -->".toList none = .diverge := by
    intro d
    induction d with
    | zero => exact ⟨rfl, rfl⟩
    | succ d ih =>
      exact ⟨process_template_include_diverge fs_demo none d "p1".toList [] _
          (by decide) (by decide) (by decide) ih.2,
        process_template_include_diverge fs_demo none d "p2".toList [] _
          (by decide) (by decide) (by decide) ih.1⟩
  exact ⟨fun ⟨d, h⟩ => h (hself d), fun ⟨d, h⟩ => h (hpair d).1⟩

/-- C8, amended. `process_template` has no nesting limit; it returns a string
when the includes are well-founded: if a rank on texts falls from every text to
every partial it includes, and neither the text nor any partial ends right after
an opening marker, then the call returns a string, the same one for every
nesting fuel above the rank of the text. -/
theorem C8_returns_when_includes_are_well_founded (fs : FileSystem)
    (locale : Option Locale) (rank : CStr → Nat)
    (hrank : ∀ (pre n rest p : CStr), load_partial fs n = some p →
      rank p < rank (pre ++ (include_open ++ (n ++ (include_close ++ rest)))))
    (hpartials : ∀ (n p : CStr), load_partial fs n = some p → ¬ EndsAtMarker p)
    (content : CStr) (hcontent : ¬ EndsAtMarker content) :
    ∃ result, ∀ depth, rank content < depth →
      process_template fs depth content locale = .ok result := by
  obtain ⟨result, h⟩ := process_template_ok fs locale rank hrank hpartials
    (rank content + 1) content (Nat.lt_succ_self _) hcontent
  refine ⟨result, fun depth hd => ?_⟩
  rw [process_template_mono_le fs locale content _ depth hd (by rw [h]; simp), h]

theorem C8_returns_when_includes_are_well_founded_witness :
    ((∀ (pre n rest p : CStr), load_partial fs_single n = some p →
        include_rank p <
          include_rank (pre ++ (include_open ++ (n ++ (include_close ++ rest))))) ∧
      (∀ (n p : CStr), load_partial fs_single n = some p → ¬ EndsAtMarker p) ∧
      ¬ EndsAtMarker "<!-- %include.p% -->".toList) ∧
    ∃ result, ∀ depth, include_rank "<!-- %include.p% -->".toList < depth →
      process_template fs_single depth "<!-- %include.p% -->".toList (some locale_demo)
        = .ok result :=
  have hpartials : ∀ (n p : CStr), load_partial fs_single n = some p → ¬ EndsAtMarker p := by
    intro n p h
    rw [load_partial_fs_single h]
    decide
  ⟨⟨include_rank_fs_single, hpartials, by decide⟩,
    C8_returns_when_includes_are_well_founded fs_single (some locale_demo) include_rank
      include_rank_fs_single hpartials "<!-- %include.p% -->".toList (by decide)⟩

/-- C9. Flat locale file: for at most 100 pairs, each with a non-empty key of
at most 255 bytes and a value of at most 1023 bytes, both free of `"`, written
as `"key"`, a colon (with any text free of `"` around it), `"value"`, and
followed by any text free of `"` (a comma or the closing brace, with optional
whitespace), after a prefix free of `"` (the opening brace), the parsing loop
of `load_locale_file` ends and leaves a table whose `count` is the number of
pairs and whose entries are the pairs in file order. -/
theorem C9_flat_locale_file (pre : CStr) (items : List Item) (hpre : '"' ∉ pre)
    (hitems : ∀ it ∈ items, it.well_formed) (hn : items.length ≤ 100) :
    ∃ entries, load_locale_file_loop (pre ++ items_text items) = some entries ∧
      Locale.count ⟨[], entries⟩ = items.length ∧
      entries.map (fun e => (e.key, e.value)) = items.map (fun it => (it.key, it.value)) := by
  obtain ⟨es, hes, hmap⟩ := parse_loop_items items pre [] _ hpre hitems
    (by simpa using hn) (Nat.lt_succ_self _)
  refine ⟨es, hes, ?_, by simpa using hmap⟩
  have := congrArg List.length hmap
  simpa [Locale.count] using this

theorem C9_flat_locale_file_witness :
    ('"' ∉ "\x7b".toList ∧ (∀ it ∈ items_demo, it.well_formed) ∧ items_demo.length ≤ 100) ∧
    "\x7b".toList ++ items_text items_demo = "\x7b\"a\": \"b\", \"c\": \"d\"\x7d".toList ∧
    ∃ entries, load_locale_file_loop ("\x7b".toList ++ items_text items_demo) = some entries ∧
      Locale.count ⟨[], entries⟩ = items_demo.length ∧
      entries.map (fun e => (e.key, e.value)) =
        items_demo.map (fun it => (it.key, it.value)) :=
  have hitems : ∀ it ∈ items_demo, it.well_formed := by
    intro it hit
    simp only [items_demo, List.mem_cons, List.mem_singleton, List.not_mem_nil, or_false] at hit
    rcases hit with rfl | rfl <;> (unfold Item.well_formed; decide)
  ⟨⟨by decide, hitems, by decide⟩, by decide,
    C9_flat_locale_file "\x7b".toList items_demo (by decide) hitems (by decide)⟩

end JellyCms
